import Mathlib

/-!
Verification of the chonker text-chunking program (src/chonker.py).

Text is modelled as a list of characters (Python strings are character
sequences).  The Unicode character classes used by Python (str.isalnum,
str.isspace, and the regex classes) are modelled on their ASCII fragment,
which covers every input appearing in the specification's scenarios; all
universally-quantified properties proved below are insensitive to the exact
class membership because both sides of each statement use the same
predicates.
-/

namespace Chonker

/-- ASCII fragment of Python's whitespace class (str.isspace and regex
whitespace both contain these characters). -/
def pyIsSpace (c : Char) : Bool :=
  c = ' ' || c = '\t' || c = '\n' || c = '\r' || c = '\x0b' || c = '\x0c'

/-- ASCII fragment of Python's str.isalnum. -/
def pyIsAlnum (c : Char) : Bool :=
  c.isAlpha || c.isDigit

/-- Regex word character (ASCII fragment): alphanumeric or underscore. -/
def reWordChar (c : Char) : Bool :=
  pyIsAlnum c || c = '_'

/-- Sentence-terminal punctuation used by the segmenter's lookbehind. -/
def isTerminal (c : Char) : Bool :=
  c = '.' || c = '?' || c = '!'

/-- Python str.lstrip(): drop leading whitespace. -/
def lstrip (l : List Char) : List Char :=
  l.dropWhile pyIsSpace

/-- Python str.rstrip(): drop trailing whitespace. -/
def rstrip (l : List Char) : List Char :=
  (l.reverse.dropWhile pyIsSpace).reverse

/-- Python str.strip(): drop whitespace from both ends. -/
def strip (l : List Char) : List Char :=
  lstrip (rstrip l)

/-- Python text.split(sep) for a single-character separator: keeps empty
fields, so the result is always non-empty. -/
def splitChar (sep : Char) : List Char → List (List Char)
  | [] => [[]]
  | c :: rest =>
    if c = sep then [] :: splitChar sep rest
    else
      match splitChar sep rest with
      | [] => [[c]]
      | l :: ls => (c :: l) :: ls

/-- Python sep.join(parts). -/
def joinWith (sep : List Char) : List (List Char) → List Char
  | [] => []
  | [l] => l
  | l :: ls => l ++ sep ++ joinWith sep ls

/-- Worker for multi-character text.split(sep): scans left to right,
splitting at each leftmost non-overlapping occurrence of sep.  The fuel is
an upper bound on the number of characters still to be consumed; the
caller supplies the full length, which always suffices. -/
def splitSeqGo (sep : List Char) : Nat → List Char → List Char → List (List Char)
  | _, acc, [] => [acc.reverse]
  | 0, acc, rest => [acc.reverse ++ rest]
  | fuel + 1, acc, c :: rest =>
    if sep.isPrefixOf (c :: rest) then
      acc.reverse :: splitSeqGo sep fuel [] (List.drop (sep.length - 1) rest)
    else
      splitSeqGo sep fuel (c :: acc) rest

/-- Python text.split(sep) for a non-empty multi-character separator. -/
def splitSeq (sep l : List Char) : List (List Char) :=
  splitSeqGo sep l.length [] l

/-- Python text.replace given the CRLF arguments: collapse every
carriage-return/line-feed pair to a single line feed, left to right,
non-overlapping. -/
def replaceCRLF : List Char → List Char
  | '\r' :: '\n' :: rest => '\n' :: replaceCRLF rest
  | c :: rest => c :: replaceCRLF rest
  | [] => []

/-- Index of the first occurrence of a double newline, Python
chunk.index('\n\n') (none models the ValueError branch). -/
def indexOfNN : List Char → Option Nat
  | [] => none
  | [_] => none
  | a :: b :: rest =>
    if a = '\n' ∧ b = '\n' then some 0
    else (indexOfNN (b :: rest)).map (· + 1)

/-- One step of the estimate_token_count loop: state is
(token_count, in_word). -/
def tokStep (st : Nat × Bool) (ch : Char) : Nat × Bool :=
  if pyIsAlnum ch then
    if st.2 then st else (st.1 + 1, true)
  else
    (if pyIsSpace ch then st.1 else st.1 + 1, false)

/-- estimate_token_count from the source: word/punctuation heuristic, the
final count scaled by 1.08 and truncated (modelled in exact arithmetic as
multiplication by 108 followed by division by 100). -/
def estimate_token_count (text : List Char) : Nat :=
  if text = [] then 0
  else ((text.foldl tokStep (0, false)).1 * 108) / 100

/-- The character-count size metric (Python len), the other choice of
size_func in main. -/
def charSize (l : List Char) : Nat :=
  l.length

/-!
## Sentence segmentation

The source splits with the regex
(?<!\w\.\w.)(?<![A-Z][a-z]\.)(?<=\.|\?|!)\s
whose matches are exactly the whitespace characters preceded by a terminal
punctuation character, minus the two negative-lookbehind suppressions.  The
lookbehinds read the characters of the original string immediately before
the whitespace; the scanner below carries that reversed prefix.
-/

/-- Decides whether a whitespace character may be a split point, given the
reversed list of the characters preceding it.  The first element is the
character immediately before the whitespace. -/
def sentBoundary : List Char → Bool
  | [] => false
  | p1 :: ps =>
    isTerminal p1 &&
    !(match ps with
      | p2 :: p3 :: p4 :: _ => !(p1 = '\n' : Bool) && reWordChar p2 && p3 = '.' && reWordChar p4
      | _ => false) &&
    !(match ps with
      | p2 :: p3 :: _ => (p1 = '.' : Bool) && p2.isLower && p3.isUpper
      | _ => false)

/-- Generic splitting scan: walks the text keeping the reversed prefix of
already-seen characters, emits a part and drops the whitespace character at
every position the boundary predicate accepts. -/
def segGo (B : List Char → Bool) : List Char → List Char → List Char → List (List Char)
  | _, acc, [] => [acc.reverse]
  | prev, acc, c :: rest =>
    if pyIsSpace c && B prev then
      acc.reverse :: segGo B (c :: prev) [] rest
    else
      segGo B (c :: prev) (c :: acc) rest

/-- split_into_sentences from the source: regex split, then strip each
part and drop the parts that become empty. -/
def split_into_sentences (text : List Char) : List (List Char) :=
  ((segGo sentBoundary [] [] text).map strip).filter (fun s => !s.isEmpty)

/-!
## Content cleaning
-/

/-- The good_lines list comprehension inside remove_lines_starting_with:
the lines of the chunk whose stripped form does not start with the
forbidden string. -/
def good_lines (chunk p : List Char) : List (List Char) :=
  (splitChar '\n' chunk).filter (fun line => !(p.isPrefixOf (strip line)))

/-- remove_lines_starting_with from the source.  A None forbidden string
and an empty one are both falsy in Python and are modelled together by the
empty list. -/
def remove_lines_starting_with (chunk p : List Char) : List Char :=
  if p = [] then chunk
  else joinWith ['\n'] (good_lines chunk p)

/-- remove_leading_title from the source.  The Python guard max_title_tokens
is less-or-equal zero becomes equality with zero over Nat. -/
def remove_leading_title (chunk : List Char) (max_title_tokens : Nat)
    (size_func : List Char → Nat) : List Char :=
  if max_title_tokens = 0 then chunk
  else
    match indexOfNN chunk with
    | none => chunk
    | some split_pos =>
      let potential_title := strip (chunk.take split_pos)
      if potential_title ≠ [] ∧ size_func potential_title ≤ max_title_tokens ∧
          ¬ ('.' ∈ potential_title ∨ '?' ∈ potential_title ∨ '!' ∈ potential_title) then
        lstrip (chunk.drop split_pos)
      else chunk

/-!
## The hierarchical chunker

The configuration bundles the arguments that smart_chunker threads through
every level: the size limits, the chosen size metric, the title-token limit
and the forbidden line-start string.
-/

structure Cfg where
  max_size : Nat
  min_size : Nat
  size_func : List Char → Nat
  title_token_limit : Nat
  line_start : List Char

/-- The two cleaning passes applied to a finalized chunk, in source order. -/
def cleanChunk (cfg : Cfg) (chunk : List Char) : List Char :=
  remove_lines_starting_with
    (remove_leading_title chunk cfg.title_token_limit cfg.size_func)
    cfg.line_start

/-- The finalize_chunk / finalize_sub_chunk / finalize_line_chunk closures
(textually identical in the source): clean the chunk and keep it only when
the cleaned form meets the minimum-size floor. -/
def finalizeChunk (cfg : Cfg) (chunk : List Char) : List (List Char) :=
  if chunk = [] then []
  else
    let processed := cleanChunk cfg chunk
    if cfg.min_size ≤ cfg.size_func processed then [processed] else []

/-- The loop of split_by_lines: greedy accumulation of stripped non-empty
lines joined by a single newline. -/
def lineLoop (cfg : Cfg) : List (List Char) → List Char → List (List Char)
  | [], current => finalizeChunk cfg current
  | l :: ls, current =>
    let line := strip l
    if line = [] then lineLoop cfg ls current
    else
      let prospective := if current = [] then line else current ++ '\n' :: line
      if cfg.size_func prospective ≤ cfg.max_size then lineLoop cfg ls prospective
      else finalizeChunk cfg current ++ lineLoop cfg ls line

/-- split_by_lines from the source. -/
def split_by_lines (cfg : Cfg) (text : List Char) : List (List Char) :=
  lineLoop cfg (splitChar '\n' text) []

/-- The loop of split_oversized_text_block: greedy accumulation of
sentences joined by a single space, descending to the line level when a
single sentence exceeds the maximum size. -/
def sentLoop (cfg : Cfg) : List (List Char) → List Char → List (List Char)
  | [], current => finalizeChunk cfg current
  | s :: ss, current =>
    let prospective := if current = [] then s else current ++ ' ' :: s
    if cfg.size_func prospective ≤ cfg.max_size then sentLoop cfg ss prospective
    else
      finalizeChunk cfg current ++
        (if cfg.max_size < cfg.size_func s then
          split_by_lines cfg s ++ sentLoop cfg ss []
        else sentLoop cfg ss s)

/-- split_oversized_text_block from the source. -/
def split_oversized_text_block (cfg : Cfg) (text : List Char) : List (List Char) :=
  sentLoop cfg (split_into_sentences text) []

/-- The paragraph loop of smart_chunker: greedy accumulation of stripped
non-empty paragraphs joined by the double-newline delimiter, descending to
the sentence level when a single paragraph exceeds the maximum size. -/
def paraLoop (cfg : Cfg) : List (List Char) → List Char → List (List Char)
  | [], current => finalizeChunk cfg current
  | p :: ps, current =>
    let paragraph := strip p
    if paragraph = [] then paraLoop cfg ps current
    else
      let prospective :=
        if current = [] then paragraph else current ++ '\n' :: '\n' :: paragraph
      if cfg.size_func prospective ≤ cfg.max_size then paraLoop cfg ps prospective
      else
        finalizeChunk cfg current ++
          (if cfg.max_size < cfg.size_func paragraph then
            split_oversized_text_block cfg paragraph ++ paraLoop cfg ps []
          else paraLoop cfg ps paragraph)

/-- The chapter loop of smart_chunker: chapters are processed independently
and their chunk lists concatenated in order. -/
def chapterLoop (cfg : Cfg) : List (List Char) → List (List Char)
  | [] => []
  | ch :: chs =>
    let chapter := strip ch
    if chapter = [] then chapterLoop cfg chs
    else paraLoop cfg (splitSeq ['\n', '\n'] chapter) [] ++ chapterLoop cfg chs

/-- smart_chunker from the source: normalize line endings, strip, split on
the chapter delimiter and run the cascade. -/
def smart_chunker (cfg : Cfg) (text : List Char) : List (List Char) :=
  chapterLoop cfg (splitSeq ['\n', '\n', '\n'] (strip (replaceCRLF text)))

/-!
## Specification-side definitions

These follow the words of the specification (or of a claim) and are
compared with the definitions translated from the source above.
-/

/-- Reference token count following the specification's words: scan left to
right keeping an inside-a-word flag; each entry into a maximal alphanumeric
run adds one; each non-alphanumeric, non-whitespace character adds one;
whitespace adds nothing and resets the flag. -/
def rawTokens (inWord : Bool) : List Char → Nat
  | [] => 0
  | c :: cs =>
    if pyIsAlnum c then (if inWord then 0 else 1) + rawTokens true cs
    else if pyIsSpace c then rawTokens false cs
    else 1 + rawTokens false cs

/-- Reference token metric from the specification: the raw count scaled by
1.08 and truncated; the empty text yields zero. -/
def tokenCountRef (text : List Char) : Nat :=
  (rawTokens false text * 108) / 100

/-- The boundary predicate exactly as claim C5 words it: suppression
requires a terminal period for the W.W. pattern (a period immediately
preceded by a word character, with another period two characters back) and
for the Xx. pattern (capital, lowercase, period). -/
def claimBoundary : List Char → Bool
  | [] => false
  | p1 :: ps =>
    isTerminal p1 &&
    !(match ps with
      | p2 :: p3 :: _ => (p1 = '.' : Bool) && reWordChar p2 && p3 = '.'
      | _ => false) &&
    !(match ps with
      | p2 :: p3 :: _ => (p1 = '.' : Bool) && p2.isLower && p3.isUpper
      | _ => false)

/-- The sentence segmenter claim C5 describes: the same scan, with the
claimed boundary predicate. -/
def claimSentences (text : List Char) : List (List Char) :=
  ((segGo claimBoundary [] [] text).map strip).filter (fun s => !s.isEmpty)

/-- Position-indexed boundary predicate over the original text, for the
amended form of claim C5: position i is a split point when the character
there is whitespace, the character before it is sentence-terminal, and
neither corrected suppression pattern matches — the W.W. pattern needs a
word character, a period, a word character and the terminal in the four
positions before the whitespace (any terminal, not only a period), and the
Xx. pattern needs a capital, a lowercase and a literal period in the three
positions before it. -/
def BoundaryIdx (text : List Char) (i : Nat) : Prop :=
  i < text.length ∧ pyIsSpace (text.getD i 'x') = true ∧
  1 ≤ i ∧ isTerminal (text.getD (i - 1) 'x') = true ∧
  ¬ (4 ≤ i ∧ text.getD (i - 1) 'x' ≠ '\n' ∧ reWordChar (text.getD (i - 2) 'x') = true ∧
      text.getD (i - 3) 'x' = '.' ∧ reWordChar (text.getD (i - 4) 'x') = true) ∧
  ¬ (3 ≤ i ∧ text.getD (i - 1) 'x' = '.' ∧ (text.getD (i - 2) 'x').isLower = true ∧
      (text.getD (i - 3) 'x').isUpper = true)

instance (text : List Char) (i : Nat) : Decidable (BoundaryIdx text i) := by
  unfold BoundaryIdx; infer_instance

/-- Splits the text at every index satisfying BoundaryIdx, dropping the
whitespace character at each split point; j is the absolute index of the
head of the remaining suffix. -/
def idxGo (text : List Char) : Nat → List Char → List (List Char)
  | _, [] => [[]]
  | j, c :: rest =>
    if BoundaryIdx text j then [] :: idxGo text (j + 1) rest
    else
      match idxGo text (j + 1) rest with
      | [] => [[c]]
      | l :: ls => (c :: l) :: ls

/-- The parts of the text between its boundary positions. -/
def splitAtBoundaries (text : List Char) : List (List Char) :=
  idxGo text 0 text

/-- The segmenter behaviour stated by the amended claim C5: split at
exactly the positions BoundaryIdx describes, then strip each part and drop
the empty ones. -/
def sentencesAmended (text : List Char) : List (List Char) :=
  ((splitAtBoundaries text).map strip).filter (fun s => !s.isEmpty)

/-- Prepends a list of characters to the first part of a split result
(helper relating the scanning splitter to the index-based one). -/
def consHead (a : List Char) : List (List Char) → List (List Char)
  | [] => [a]
  | l :: ls => (a ++ l) :: ls

/-!
## Lemmas about the token metric
-/

lemma tokStep_fst_le (st : Nat × Bool) (c : Char) : st.1 ≤ (tokStep st c).1 := by
  unfold tokStep
  split_ifs <;> simp

lemma foldl_tokStep_fst_le (l : List Char) :
    ∀ st : Nat × Bool, st.1 ≤ (l.foldl tokStep st).1 := by
  induction l with
  | nil => intro st; simp
  | cons c cs ih =>
    intro st
    calc st.1 ≤ (tokStep st c).1 := tokStep_fst_le st c
      _ ≤ ((c :: cs).foldl tokStep st).1 := by simpa using ih (tokStep st c)

lemma foldl_tokStep_raw (l : List Char) :
    ∀ (n : Nat) (b : Bool), (l.foldl tokStep (n, b)).1 = n + rawTokens b l := by
  induction l with
  | nil => intro n b; simp [rawTokens]
  | cons c cs ih =>
    intro n b
    simp only [List.foldl_cons, tokStep, rawTokens]
    by_cases ha : pyIsAlnum c = true
    · cases b with
      | false => simp [ha, ih]; omega
      | true => simp [ha, ih]
    · by_cases hs : pyIsSpace c = true
      · simp [ha, hs, ih]
      · simp [ha, hs, ih]; omega

/-- Claim C7: both size metrics are monotone under concatenation — the
size of s followed by t is at least the size of s, under the character
metric and under the heuristic token metric. -/
theorem claim_C7_metrics_monotone (s t : List Char) :
    charSize s ≤ charSize (s ++ t) ∧
    estimate_token_count s ≤ estimate_token_count (s ++ t) := by
  constructor
  · simp [charSize]
  · unfold estimate_token_count
    by_cases hs : s = []
    · simp [hs]
    · have hst : s ++ t ≠ [] := fun h => hs (List.append_eq_nil.mp h).1
      simp only [hs, hst, if_false]
      apply Nat.div_le_div_right
      apply Nat.mul_le_mul_right
      rw [List.foldl_append]
      exact foldl_tokStep_fst_le t _

/-- Claim C8: the heuristic token metric of the source equals the
reference definition written from the specification's words. -/
theorem claim_C8_token_metric_eq_ref (text : List Char) :
    estimate_token_count text = tokenCountRef text := by
  unfold estimate_token_count tokenCountRef
  by_cases h : text = []
  · simp [h, rawTokens]
  · simp only [h, if_false, foldl_tokStep_raw, Nat.zero_add]

/-!
## Lemmas about line splitting and joining
-/

lemma splitChar_ne_nil (sep : Char) (l : List Char) : splitChar sep l ≠ [] := by
  cases l with
  | nil => simp [splitChar]
  | cons c rest =>
    unfold splitChar
    split_ifs
    · simp
    · cases h : splitChar sep rest <;> simp

lemma not_mem_of_mem_splitChar (sep : Char) (l : List Char) :
    ∀ x ∈ splitChar sep l, sep ∉ x := by
  induction l with
  | nil => intro x hx; simp [splitChar] at hx; simp [hx]
  | cons c rest ih =>
    intro x hx
    unfold splitChar at hx
    by_cases hc : c = sep
    · simp only [hc, if_true] at hx
      rcases List.mem_cons.mp hx with h | h
      · simp [h]
      · exact ih x h
    · simp only [hc, if_false] at hx
      cases hsp : splitChar sep rest with
      | nil => exact absurd hsp (splitChar_ne_nil sep rest)
      | cons l₀ ls =>
        rw [hsp] at hx
        rcases List.mem_cons.mp hx with h | h
        · subst h
          intro hmem
          rcases List.mem_cons.mp hmem with h | h
          · exact hc h.symm
          · exact ih l₀ (hsp ▸ List.mem_cons_self l₀ ls) h
        · exact ih x (hsp ▸ List.mem_cons_of_mem l₀ h)

lemma splitChar_of_not_mem {sep : Char} {a : List Char} (h : sep ∉ a) :
    splitChar sep a = [a] := by
  induction a with
  | nil => rfl
  | cons c rest ih =>
    have hc : ¬ c = sep := fun hcs => h (hcs ▸ List.mem_cons_self c rest)
    have hrest : sep ∉ rest := fun hm => h (List.mem_cons_of_mem c hm)
    unfold splitChar
    simp only [hc, if_false, ih hrest]

lemma splitChar_append_cons {sep : Char} {a : List Char} (t : List Char) (h : sep ∉ a) :
    splitChar sep (a ++ sep :: t) = a :: splitChar sep t := by
  induction a with
  | nil => simp [splitChar]
  | cons c rest ih =>
    have hc : ¬ c = sep := fun hcs => h (hcs ▸ List.mem_cons_self c rest)
    have hrest : sep ∉ rest := fun hm => h (List.mem_cons_of_mem c hm)
    have hstep : splitChar sep ((c :: rest) ++ sep :: t) =
        match splitChar sep (rest ++ sep :: t) with
        | [] => [[c]]
        | l :: ls => (c :: l) :: ls := by
      simp only [List.cons_append, splitChar, hc, if_false, List.append_eq]
    rw [hstep, ih hrest]

lemma splitChar_joinWith {sep : Char} {ls : List (List Char)}
    (h : ∀ x ∈ ls, sep ∉ x) (hne : ls ≠ []) :
    splitChar sep (joinWith [sep] ls) = ls := by
  induction ls with
  | nil => exact absurd rfl hne
  | cons a ls' ih =>
    cases ls' with
    | nil => simpa [joinWith] using splitChar_of_not_mem (h a (List.mem_cons_self a []))
    | cons b ls'' =>
      have ha : sep ∉ a := h a (List.mem_cons_self a _)
      have hrest : ∀ x ∈ b :: ls'', sep ∉ x := fun x hx => h x (List.mem_cons_of_mem a hx)
      have : joinWith [sep] (a :: b :: ls'') = a ++ sep :: joinWith [sep] (b :: ls'') := by
        simp [joinWith]
      rw [this, splitChar_append_cons _ ha, ih hrest (by simp)]

/-- Claim C9: prefix-line filtering is idempotent — applying
remove_lines_starting_with twice with the same forbidden string yields the
same result as applying it once. -/
theorem claim_C9_filter_idempotent (chunk p : List Char) :
    remove_lines_starting_with (remove_lines_starting_with chunk p) p =
      remove_lines_starting_with chunk p := by
  by_cases hp : p = []
  · simp [remove_lines_starting_with, hp]
  · obtain ⟨q, qs, rfl⟩ := List.exists_cons_of_ne_nil hp
    have hrw : ∀ c : List Char, remove_lines_starting_with c (q :: qs) =
        joinWith ['\n'] (good_lines c (q :: qs)) := by
      intro c
      rw [remove_lines_starting_with, if_neg (by simp)]
    by_cases hg : good_lines chunk (q :: qs) = []
    · rw [hrw chunk, hg, hrw]
      rfl
    · rw [hrw chunk, hrw]
      have hmem : ∀ x ∈ good_lines chunk (q :: qs), '\n' ∉ x := fun x hx =>
        not_mem_of_mem_splitChar '\n' chunk x (List.mem_of_mem_filter hx)
      have hsplit : splitChar '\n' (joinWith ['\n'] (good_lines chunk (q :: qs))) =
          good_lines chunk (q :: qs) := splitChar_joinWith hmem hg
      unfold good_lines at hsplit ⊢
      rw [hsplit, List.filter_filter]
      simp only [Bool.and_self]

/-- Claim C10: with the empty string as the forbidden line start,
remove_lines_starting_with returns the chunk unchanged, even though the
trimmed content of every line starts with the empty string — the filter
alone would have removed every line. -/
theorem claim_C10_empty_prefix_noop (chunk : List Char) :
    remove_lines_starting_with chunk [] = chunk ∧ good_lines chunk [] = [] := by
  constructor
  · simp [remove_lines_starting_with]
  · unfold good_lines
    simp [List.isPrefixOf_nil_left]

/-!
## Lemmas about the first double newline
-/

lemma indexOfNN_spec (l : List Char) :
    ∀ i, indexOfNN l = some i → (l.drop i).take 2 = ['\n', '\n'] := by
  induction l with
  | nil => intro i h; simp [indexOfNN] at h
  | cons a l ih =>
    intro i h
    cases l with
    | nil => simp [indexOfNN] at h
    | cons b rest =>
      unfold indexOfNN at h
      by_cases hab : a = '\n' ∧ b = '\n'
      · simp only [hab, and_self, if_true, Option.some.injEq] at h
        subst h
        simp [hab.1, hab.2]
      · simp only [hab, if_false, Option.map_eq_some'] at h
        obtain ⟨j, hj, rfl⟩ := h
        simpa using ih j hj

lemma indexOfNN_first (l : List Char) :
    ∀ i, indexOfNN l = some i → ∀ j, j < i → (l.drop j).take 2 ≠ ['\n', '\n'] := by
  induction l with
  | nil => intro i h; simp [indexOfNN] at h
  | cons a l ih =>
    intro i h j hj
    cases l with
    | nil => simp [indexOfNN] at h
    | cons b rest =>
      unfold indexOfNN at h
      by_cases hab : a = '\n' ∧ b = '\n'
      · simp only [hab, and_self, if_true, Option.some.injEq] at h
        omega
      · simp only [hab, if_false, Option.map_eq_some'] at h
        obtain ⟨k, hk, rfl⟩ := h
        cases j with
        | zero =>
          simp only [List.drop_zero, List.take_succ_cons, List.take_zero]
          intro hcontra
          simp only [List.cons.injEq] at hcontra
          exact hab ⟨hcontra.1, hcontra.2.1⟩
        | succ j' =>
          simpa using ih k hk j' (by omega)

lemma drop_of_indexOfNN {l : List Char} {i : Nat} (h : indexOfNN l = some i) :
    l.drop i = '\n' :: '\n' :: l.drop (i + 2) := by
  have h2 := indexOfNN_spec l i h
  have := (List.take_append_drop 2 (l.drop i)).symm
  rw [h2] at this
  rw [this, List.drop_drop]
  rfl

lemma lstrip_double_newline (x : List Char) :
    lstrip ('\n' :: '\n' :: x) = lstrip x := by
  simp [lstrip, List.dropWhile, pyIsSpace]

/-- Claim C4: with a positive title-token limit, remove_leading_title
considers exactly the first double-newline boundary; when the trimmed text
before it is non-empty, free of sentence-terminal punctuation and of size
at most the limit, the result is the text after that double newline with
leading whitespace trimmed, and in every other case the chunk is returned
unchanged. -/
theorem claim_C4_title_strip (chunk : List Char) (tl : Nat) (f : List Char → Nat)
    (htl : 0 < tl) :
    (indexOfNN chunk = none → remove_leading_title chunk tl f = chunk) ∧
    (∀ i, indexOfNN chunk = some i →
      (chunk.drop i).take 2 = ['\n', '\n'] ∧
      (∀ j, j < i → (chunk.drop j).take 2 ≠ ['\n', '\n']) ∧
      (strip (chunk.take i) ≠ [] →
        '.' ∉ strip (chunk.take i) → '?' ∉ strip (chunk.take i) →
        '!' ∉ strip (chunk.take i) → f (strip (chunk.take i)) ≤ tl →
        remove_leading_title chunk tl f = lstrip (chunk.drop (i + 2))) ∧
      ((strip (chunk.take i) = [] ∨ '.' ∈ strip (chunk.take i) ∨
          '?' ∈ strip (chunk.take i) ∨ '!' ∈ strip (chunk.take i) ∨
          tl < f (strip (chunk.take i))) →
        remove_leading_title chunk tl f = chunk)) := by
  have htl' : ¬ tl = 0 := Nat.pos_iff_ne_zero.mp htl
  constructor
  · intro hnone
    unfold remove_leading_title
    simp [htl', hnone]
  · intro i hsome
    refine ⟨indexOfNN_spec chunk i hsome, indexOfNN_first chunk i hsome, ?_, ?_⟩
    · intro hne hdot hq hbang hsize
      unfold remove_leading_title
      simp only [htl', if_false, hsome]
      rw [if_pos ⟨hne, hsize, by push_neg; exact ⟨hdot, hq, hbang⟩⟩]
      rw [drop_of_indexOfNN hsome, lstrip_double_newline]
    · intro hbad
      unfold remove_leading_title
      simp only [htl', if_false, hsome]
      rw [if_neg]
      intro ⟨h1, h2, h3⟩
      push_neg at h3
      rcases hbad with h | h | h | h | h
      · exact h1 h
      · exact h3.1 h
      · exact h3.2.1 h
      · exact h3.2.2 h
      · omega

/-- Witness for claim C4 at a concrete chunk: a one-character title line
followed by a double newline is stripped. -/
theorem claim_C4_title_strip_witness :
    remove_leading_title "T\n\nbody".data 2 charSize = "body".data := by
  have h := (((claim_C4_title_strip "T\n\nbody".data 2 charSize (by decide)).2 1
    (by decide)).2.2.1) (by decide) (by decide) (by decide) (by decide) (by decide)
  exact h.trans (by decide)

/-!
## The minimum-size floor invariant
-/

lemma mem_finalizeChunk {cfg : Cfg} {chunk c : List Char}
    (h : c ∈ finalizeChunk cfg chunk) :
    cfg.min_size ≤ cfg.size_func c ∧ ∃ b, c = cleanChunk cfg b := by
  simp only [finalizeChunk] at h
  split_ifs at h with h1 h2
  · simp at h
  · simp only [List.mem_singleton] at h
    exact ⟨h ▸ h2, chunk, h⟩
  · simp at h

lemma mem_lineLoop {cfg : Cfg} {c : List Char} :
    ∀ (ls : List (List Char)) (cur : List Char),
      c ∈ lineLoop cfg ls cur → cfg.min_size ≤ cfg.size_func c := by
  intro ls
  induction ls with
  | nil =>
    intro cur h
    exact (mem_finalizeChunk (by simpa [lineLoop] using h)).1
  | cons l ls ih =>
    intro cur h
    simp only [lineLoop] at h
    split_ifs at h <;> (try simp only [List.mem_append] at h) <;> (try rcases h with h | h) <;>
      first
        | exact ih _ h
        | exact (mem_finalizeChunk h).1

lemma mem_split_by_lines {cfg : Cfg} {text c : List Char}
    (h : c ∈ split_by_lines cfg text) : cfg.min_size ≤ cfg.size_func c :=
  mem_lineLoop _ _ h

lemma mem_sentLoop {cfg : Cfg} {c : List Char} :
    ∀ (ss : List (List Char)) (cur : List Char),
      c ∈ sentLoop cfg ss cur → cfg.min_size ≤ cfg.size_func c := by
  intro ss
  induction ss with
  | nil =>
    intro cur h
    exact (mem_finalizeChunk (by simpa [sentLoop] using h)).1
  | cons s ss ih =>
    intro cur h
    simp only [sentLoop] at h
    split_ifs at h <;> (try simp only [List.mem_append] at h) <;> (try rcases h with h | h) <;> (try rcases h with h | h) <;>
      first
        | exact ih _ h
        | exact (mem_finalizeChunk h).1
        | exact mem_split_by_lines h

lemma mem_split_oversized {cfg : Cfg} {text c : List Char}
    (h : c ∈ split_oversized_text_block cfg text) :
    cfg.min_size ≤ cfg.size_func c :=
  mem_sentLoop _ _ h

lemma mem_paraLoop {cfg : Cfg} {c : List Char} :
    ∀ (ps : List (List Char)) (cur : List Char),
      c ∈ paraLoop cfg ps cur → cfg.min_size ≤ cfg.size_func c := by
  intro ps
  induction ps with
  | nil =>
    intro cur h
    exact (mem_finalizeChunk (by simpa [paraLoop] using h)).1
  | cons p ps ih =>
    intro cur h
    simp only [paraLoop] at h
    split_ifs at h <;> (try simp only [List.mem_append] at h) <;> (try rcases h with h | h) <;> (try rcases h with h | h) <;>
      first
        | exact ih _ h
        | exact (mem_finalizeChunk h).1
        | exact mem_split_oversized h

lemma mem_chapterLoop {cfg : Cfg} {c : List Char} :
    ∀ chs : List (List Char),
      c ∈ chapterLoop cfg chs → cfg.min_size ≤ cfg.size_func c := by
  intro chs
  induction chs with
  | nil => intro h; simp [chapterLoop] at h
  | cons ch chs ih =>
    intro h
    simp only [chapterLoop] at h
    split_ifs at h <;> (try simp only [List.mem_append] at h) <;> (try rcases h with h | h) <;>
      first
        | exact ih h
        | exact mem_paraLoop _ _ h

/-- Claim C2: for every text, size limits, size metric and cleaning
policy, every chunk returned by smart_chunker has size at least min_size
under the chosen metric; a non-empty chunk whose cleaned form falls below
the floor is dropped by finalization (the result is empty — nothing is
padded or merged in its place). -/
theorem claim_C2_min_size_floor :
    (∀ (cfg : Cfg) (text c : List Char),
      c ∈ smart_chunker cfg text → cfg.min_size ≤ cfg.size_func c) ∧
    (∀ (cfg : Cfg) (chunk : List Char), chunk ≠ [] →
      cfg.size_func (cleanChunk cfg chunk) < cfg.min_size →
      finalizeChunk cfg chunk = []) := by
  constructor
  · intro cfg text c h
    exact mem_chapterLoop _ h
  · intro cfg chunk hne hlt
    unfold finalizeChunk
    rw [if_neg hne, if_neg (by omega)]

/-- Witness for claim C2: a two-character chunk against a floor of one,
and a finalization that drops a chunk whose cleaned form is below the
floor. -/
theorem claim_C2_min_size_floor_witness :
    (1 ≤ charSize "ab".data) ∧
    (finalizeChunk ⟨10, 5, charSize, 0, []⟩ "ab".data = []) :=
  ⟨claim_C2_min_size_floor.1 ⟨10, 1, charSize, 0, []⟩ "ab".data "ab".data (by decide),
   claim_C2_min_size_floor.2 ⟨10, 5, charSize, 0, []⟩ "ab".data (by decide) (by decide)⟩

/-- Claim C3: the line level never splits inside a line — for any text
without a newline, split_by_lines finalizes the whole (stripped) line as a
single chunk, whatever its size, subject only to cleaning and the
minimum-size floor; and the fifty-character single-line document under
maxSize ten falls through the sentence level to the line level and comes
back whole as one oversized terminal chunk. -/
theorem claim_C3_oversized_line :
    (∀ (cfg : Cfg) (text : List Char), '\n' ∉ text →
      split_by_lines cfg text = finalizeChunk cfg (strip text)) ∧
    smart_chunker ⟨10, 0, charSize, 0, []⟩ (List.replicate 50 'A') =
      [List.replicate 50 'A'] := by
  constructor
  · intro cfg text h
    rw [split_by_lines, splitChar_of_not_mem h]
    by_cases hs : strip text = []
    · simp [lineLoop, hs, finalizeChunk]
    · simp only [lineLoop, hs, if_false, ite_true]
      split_ifs <;> simp [lineLoop, finalizeChunk]
  · decide

/-- Witness for claim C3 at a concrete newline-free text. -/
theorem claim_C3_oversized_line_witness :
    split_by_lines ⟨3, 0, charSize, 0, []⟩ "hello".data = ["hello".data] :=
  (claim_C3_oversized_line.1 ⟨3, 0, charSize, 0, []⟩ "hello".data
    (by decide)).trans (by decide)

/-- Claim C6: the greedy packer accepts a prospective chunk exactly when
its size is at most max_size.  First conjunct: a single-paragraph document
whose size equals max_size exactly is emitted as one chunk, never split.
Second conjunct: a single-chapter document of two paragraphs, each within
max_size but whose double-newline-joined combination exceeds it, yields
exactly the two paragraphs as separate chunks, in order. -/
theorem claim_C6_greedy_boundary :
    (∀ (cfg : Cfg) (text : List Char),
      strip (replaceCRLF text) = text →
      splitSeq ['\n', '\n', '\n'] text = [text] →
      splitSeq ['\n', '\n'] text = [text] →
      strip text = text → text ≠ [] →
      cfg.size_func text = cfg.max_size →
      cfg.min_size ≤ cfg.size_func (cleanChunk cfg text) →
      smart_chunker cfg text = [cleanChunk cfg text]) ∧
    (∀ (cfg : Cfg) (text p1 p2 : List Char),
      strip (replaceCRLF text) = text →
      splitSeq ['\n', '\n', '\n'] text = [text] →
      splitSeq ['\n', '\n'] text = [p1, p2] →
      strip text = text → text ≠ [] →
      strip p1 = p1 → p1 ≠ [] → strip p2 = p2 → p2 ≠ [] →
      cfg.size_func p1 ≤ cfg.max_size →
      cfg.size_func p2 ≤ cfg.max_size →
      cfg.max_size < cfg.size_func (p1 ++ '\n' :: '\n' :: p2) →
      cfg.min_size ≤ cfg.size_func (cleanChunk cfg p1) →
      cfg.min_size ≤ cfg.size_func (cleanChunk cfg p2) →
      smart_chunker cfg text = [cleanChunk cfg p1, cleanChunk cfg p2]) := by
  constructor
  · intro cfg text hnorm hch3 hnn2 hstrip hne hsize hfloor
    simp only [smart_chunker, hnorm, hch3, chapterLoop, hstrip, hne, if_false,
      ite_false, paraLoop, finalizeChunk, hsize, le_refl, if_true, ite_true,
      List.append_nil]
    rw [hnn2]
    simp only [paraLoop, hstrip, hne, ite_false, if_false, ite_true, if_true]
    rw [hsize, if_pos (le_refl cfg.max_size)]
    simp only [finalizeChunk]
    rw [if_neg hne, if_pos hfloor]
  · intro cfg text p1 p2 hnorm hch3 hnn2 hstrip hne hp1s hp1ne hp2s hp2ne
      hf1 hf2 hbig hfl1 hfl2
    have hnle : ¬ (cfg.size_func (p1 ++ '\n' :: '\n' :: p2) ≤ cfg.max_size) := by omega
    have hnlt2 : ¬ (cfg.max_size < cfg.size_func p2) := by omega
    simp only [smart_chunker, hnorm, hch3, chapterLoop, hstrip, hne, if_false,
      ite_false, List.append_nil]
    rw [hnn2]
    simp [paraLoop, finalizeChunk, hp1s, hp2s, hp1ne, hp2ne, hf1, hnle, hnlt2,
      hfl1, hfl2]

/-- Witness for claim C6: an exact-fit paragraph and a two-paragraph
overflow under the character metric. -/
theorem claim_C6_greedy_boundary_witness :
    smart_chunker ⟨4, 0, charSize, 0, []⟩ "aaaa".data = ["aaaa".data] ∧
    smart_chunker ⟨4, 0, charSize, 0, []⟩ "aaa\n\nbbb".data =
      ["aaa".data, "bbb".data] :=
  ⟨(claim_C6_greedy_boundary.1 ⟨4, 0, charSize, 0, []⟩ "aaaa".data
      (by decide) (by decide) (by decide) (by decide) (by decide) (by decide)
      (by decide)).trans (by decide),
   (claim_C6_greedy_boundary.2 ⟨4, 0, charSize, 0, []⟩ "aaa\n\nbbb".data
      "aaa".data "bbb".data
      (by decide) (by decide) (by decide) (by decide) (by decide) (by decide)
      (by decide) (by decide) (by decide) (by decide) (by decide) (by decide)
      (by decide) (by decide)).trans (by decide)⟩

/-- Counterexample to claim C1: under the character metric the candidate
title has size five, which exceeds the title-token limit of three, so the
title line is not stripped — the output is not the claimed single stripped
chunk. -/
theorem claim_C1_counterexample :
    smart_chunker ⟨1000, 0, charSize, 3, []⟩
        "Title\n\nHello world. This is a test.".data ≠
      ["Hello world. This is a test.".data] := by
  decide

/-- Amended claim C1: the scenario yields exactly one chunk, the whole
text with the title line retained, because the title's size under the
character metric (five) exceeds the limit of three. -/
theorem claim_C1_title_kept :
    smart_chunker ⟨1000, 0, charSize, 3, []⟩
        "Title\n\nHello world. This is a test.".data =
      ["Title\n\nHello world. This is a test.".data] := by
  decide


/-!
## The sentence segmenter (claim C5)
-/

lemma drop_eq_cons_facts {text : List Char} {j : Nat} {c : Char} {rest : List Char}
    (h : text.drop j = c :: rest) :
    j < text.length ∧ text.getD j 'x' = c ∧ text.drop (j + 1) = rest := by
  have hlen := congrArg List.length h
  simp only [List.length_drop, List.length_cons] at hlen
  have hj : j < text.length := by omega
  refine ⟨hj, ?_, ?_⟩
  · have h0 : (text.drop j)[0]? = some c := by rw [h]; simp
    rw [List.getElem?_drop] at h0
    simp only [Nat.add_zero] at h0
    rw [List.getD_eq_getElem?_getD, h0]
    rfl
  · have hc : (text.drop j).drop 1 = text.drop (j + 1) := by
      rw [List.drop_drop]
    rw [← hc, h, List.drop_one, List.tail_cons]

lemma take_reverse_succ (text : List Char) (j : Nat) (hj : j < text.length) :
    (text.take (j + 1)).reverse = text.getD j 'x' :: (text.take j).reverse := by
  have hsome : text[j]? = some text[j] := by
    simp [hj]
  rw [List.take_succ, hsome]
  simp [List.getD_eq_getElem?_getD, hsome]

lemma boundary_cond (text : List Char) (j : Nat) (c : Char) (rest : List Char)
    (h : text.drop j = c :: rest) :
    (pyIsSpace c && sentBoundary ((text.take j).reverse)) = true ↔ BoundaryIdx text j := by
  obtain ⟨hj, hgd, -⟩ := drop_eq_cons_facts h
  by_cases h1 : j = 0
  · subst h1
    simp [sentBoundary, BoundaryIdx]
  by_cases h2 : j = 1
  · subst h2
    have t1 : (text.take 1).reverse = [text.getD 0 'x'] :=
      take_reverse_succ text 0 (by omega)
    rw [t1]
    simp only [BoundaryIdx]
    rw [hgd]
    simp [sentBoundary, hj]
    try tauto
  by_cases h3 : j = 2
  · subst h3
    have t1 : (text.take 1).reverse = [text.getD 0 'x'] :=
      take_reverse_succ text 0 (by omega)
    have t2 : (text.take 2).reverse = text.getD 1 'x' :: (text.take 1).reverse :=
      take_reverse_succ text 1 (by omega)
    rw [t2, t1]
    simp only [BoundaryIdx]
    rw [hgd]
    simp [sentBoundary, hj]
    try tauto
  by_cases h4 : j = 3
  · subst h4
    have t1 : (text.take 1).reverse = [text.getD 0 'x'] :=
      take_reverse_succ text 0 (by omega)
    have t2 : (text.take 2).reverse = text.getD 1 'x' :: (text.take 1).reverse :=
      take_reverse_succ text 1 (by omega)
    have t3 : (text.take 3).reverse = text.getD 2 'x' :: (text.take 2).reverse :=
      take_reverse_succ text 2 (by omega)
    rw [t3, t2, t1]
    simp only [BoundaryIdx]
    rw [hgd]
    simp [sentBoundary, hj]
    simp only [Bool.eq_false_iff, ne_eq]
    tauto
  · obtain ⟨n, rfl⟩ : ∃ n, j = n + 4 := ⟨j - 4, by omega⟩
    have t1 : (text.take (n + 1)).reverse =
        text.getD n 'x' :: (text.take n).reverse :=
      take_reverse_succ text n (by omega)
    have t2 : (text.take (n + 2)).reverse =
        text.getD (n + 1) 'x' :: (text.take (n + 1)).reverse :=
      take_reverse_succ text (n + 1) (by omega)
    have t3 : (text.take (n + 3)).reverse =
        text.getD (n + 2) 'x' :: (text.take (n + 2)).reverse :=
      take_reverse_succ text (n + 2) (by omega)
    have t4 : (text.take (n + 4)).reverse =
        text.getD (n + 3) 'x' :: (text.take (n + 3)).reverse :=
      take_reverse_succ text (n + 3) (by omega)
    rw [t4, t3, t2, t1]
    simp only [BoundaryIdx]
    rw [hgd]
    have f1 : n + 4 - 1 = n + 3 := by omega
    have f2 : n + 4 - 2 = n + 2 := by omega
    have f3 : n + 4 - 3 = n + 1 := by omega
    have f4 : n + 4 - 4 = n := by omega
    simp only [f1, f2, f3, f4]
    simp [sentBoundary, hj]
    simp only [Bool.eq_false_iff, ne_eq]
    intro hsp
    constructor
    · rintro ⟨⟨ht, hww⟩, hxx⟩
      refine ⟨ht, ?_, ?_⟩
      · intro ha hw2 hp1
        rcases hww with ((ha' | hw2') | hp1') | hw0
        · exact absurd ha' ha
        · exact absurd hw2 hw2'
        · exact absurd hp1 hp1'
        · exact hw0
      · intro ha hlow
        rcases hxx with (ha' | hlow') | hup
        · exact absurd ha ha'
        · exact absurd hlow hlow'
        · exact hup
    · rintro ⟨ht, hww, hxx⟩
      refine ⟨⟨ht, ?_⟩, ?_⟩
      · by_cases ha : text[n + 3]?.getD 'x' = '\n'
        · exact Or.inl (Or.inl (Or.inl ha))
        · by_cases hw2 : reWordChar (text[n + 2]?.getD 'x') = true
          · by_cases hp1 : text[n + 1]?.getD 'x' = '.'
            · exact Or.inr (hww ha hw2 hp1)
            · exact Or.inl (Or.inr hp1)
          · exact Or.inl (Or.inl (Or.inr hw2))
      · by_cases ha : text[n + 3]?.getD 'x' = '.'
        · by_cases hlow : (text[n + 2]?.getD 'x').isLower = true
          · exact Or.inr (hxx ha hlow)
          · exact Or.inl (Or.inr hlow)
        · exact Or.inl (Or.inl ha)

lemma idxGo_ne_nil (text : List Char) : ∀ (j : Nat) (l : List Char), idxGo text j l ≠ [] := by
  intro j l
  cases l with
  | nil => simp [idxGo]
  | cons c rest =>
    simp only [idxGo]
    split_ifs
    · simp
    · cases h : idxGo text (j + 1) rest <;> simp

lemma consHead_nil_of_ne {r : List (List Char)} (h : r ≠ []) : consHead [] r = r := by
  cases r with
  | nil => exact absurd rfl h
  | cons x xs => simp [consHead]

lemma segGo_eq_idxGo (text : List Char) :
    ∀ (l : List Char) (j : Nat) (acc : List Char), text.drop j = l →
      segGo sentBoundary ((text.take j).reverse) acc l =
        consHead acc.reverse (idxGo text j l) := by
  intro l
  induction l with
  | nil =>
    intro j acc hdrop
    simp [segGo, idxGo, consHead]
  | cons c rest ih =>
    intro j acc hdrop
    obtain ⟨hj, hgd, hdrop1⟩ := drop_eq_cons_facts hdrop
    have htake1 : (text.take (j + 1)).reverse = c :: (text.take j).reverse := by
      rw [take_reverse_succ text j hj, hgd]
    have hcond := boundary_cond text j c rest hdrop
    by_cases hB : BoundaryIdx text j
    · have hbtrue : (pyIsSpace c && sentBoundary ((text.take j).reverse)) = true :=
        hcond.mpr hB
      simp only [segGo, hbtrue, if_true]
      rw [← htake1, ih (j + 1) [] hdrop1, List.reverse_nil,
        consHead_nil_of_ne (idxGo_ne_nil text (j + 1) rest)]
      simp [idxGo, hB, consHead]
    · have hbfalse : (pyIsSpace c && sentBoundary ((text.take j).reverse)) = false := by
        cases hb : (pyIsSpace c && sentBoundary ((text.take j).reverse)) with
        | false => rfl
        | true => exact absurd (hcond.mp hb) hB
      simp only [segGo, hbfalse, Bool.false_eq_true, if_false]
      rw [← htake1, ih (j + 1) (c :: acc) hdrop1]
      cases hr : idxGo text (j + 1) rest with
      | nil => exact absurd hr (idxGo_ne_nil text (j + 1) rest)
      | cons hd tl =>
        simp [idxGo, hB, hr, consHead, List.append_assoc]

/-- Counterexample to claim C5: the source's W.W. lookbehind fires for any
terminal character (its last regex position is a wildcard) and requires a
word character four positions back, while the claim's description demands
a terminal period and omits the fourth character; the two disagree on
"A.B? x" (code suppresses the split, claim does not) and on ".a. b" (code
splits, claim suppresses). -/
theorem claim_C5_counterexample :
    split_into_sentences "A.B? x".data = ["A.B? x".data] ∧
    claimSentences "A.B? x".data = ["A.B?".data, "x".data] ∧
    split_into_sentences "A.B? x".data ≠ claimSentences "A.B? x".data ∧
    split_into_sentences ".a. b".data = [".a.".data, "b".data] ∧
    claimSentences ".a. b".data = [".a. b".data] := by
  refine ⟨by decide, by decide, by decide, by decide, by decide⟩

/-- Amended claim C5: the segmenter splits exactly at the positions where
a whitespace character follows a sentence-terminal character, except that
the split is suppressed when the four characters before the whitespace are
word character, period, word character, terminal (whatever the terminal
is), or when the three characters before it are a capital, a lowercase and
a literal period; the parts are trimmed and empty ones discarded, in
order.  Stated against the position-indexed reference splitter. -/
theorem claim_C5_segmenter_amended (text : List Char) :
    split_into_sentences text = sentencesAmended text := by
  unfold split_into_sentences sentencesAmended splitAtBoundaries
  have h := segGo_eq_idxGo text text 0 [] (by simp)
  simp only [List.take_zero, List.reverse_nil] at h
  rw [h, consHead_nil_of_ne (idxGo_ne_nil text 0 text)]

end Chonker
